import Mathlib

/-!
Verification of the parse-it parser generator against its specification.

The development shallowly embeds:
* the token-vector parser runtime of `parse-it/src/primitive.rs` and
  `parse-it/src/combinator.rs` (a deep syntax `PP` of parsers and a
  fuel-indexed interpreter `interp`);
* the lexer-based runtime of `parse-it/src/parser.rs` / `parse-it/src/memo.rs`
  (`parseWith`, `memorizeF`, `leftRecF`);
* the grammar-compiler analyses of `parse-it-codegen/src/frontend.rs`
  (left-recursion detection, transitive dependencies);
* the IR builders of `parse-it-codegen/src/middle.rs` (`Capture.unify`,
  `Parsing.then`);
* the self-rewriter of `parse-it-codegen/src/utils.rs`.

Machine integers (`usize` cursors, spans) are modelled by `Nat`; the opaque
lexer position type is modelled by `Nat` with its linear order.
-/

namespace ParseIt

/-! ### Token & state model for the `primitive.rs` runtime

`primitive.rs` and `combinator.rs` parse over a `ParserState<K>` holding a
vector of spanned tokens with an interior-mutable position.  That state type
itself is not under `src/` (the in-tree `parser.rs` belongs to the lexer
revision), so it is modelled from the spec, section 4.5 and 6: a cursor into a
token buffer, `fork` clones the cursor, `advance_to` commits a fork's cursor,
`span()` is the span of the most recent token. -/

/-- A token of the `primitive.rs` runtime: `Token { kind, span }` with
`K = Char` (the instantiation used by `lib.rs`). -/
structure Tok where
  kind : Char
  span : Nat × Nat
deriving DecidableEq, Repr

/-- Modelled from the spec: the missing `ParserState<K>` of the
`primitive.rs` revision; a shared token buffer plus a cursor index. -/
structure PState where
  tokens : List Tok
  pos : Nat
deriving DecidableEq, Repr

/-- `ParserState::fork`: an independent state aliasing the same input at the
current cursor. -/
def PState.fork (s : PState) : PState := s

/-- `ParserState::advance_to_pos`: commit a cursor into `s`.  The source
asserts that the target is not before the current cursor ("you cannot
rewind", `parser.rs` line 183; panicking is modelled as `none`). -/
def PState.advanceToPos (s : PState) (e : Nat) : Option PState :=
  if s.pos ≤ e then some { s with pos := e } else none

/-- `ParserState::advance_to`: commit the fork's cursor into `s`. -/
def PState.advanceTo (s t : PState) : Option PState := s.advanceToPos t.pos

/-- `ParserState::next`: consume one token, advancing the cursor. -/
def PState.next (s : PState) : Option Tok × PState :=
  match s.tokens.get? s.pos with
  | some t => (some t, { s with pos := s.pos + 1 })
  | none => (none, s)

/-- Modelled from the spec: `ParserState::span` returns the span of the most
recent token (spec section 6, `span()`), or a zero span before any token. -/
def PState.stSpan (s : PState) : Nat × Nat :=
  match s.pos with
  | 0 => (0, 0)
  | p + 1 =>
    match s.tokens.get? p with
    | some t => t.span
    | none => (0, 0)

/-- A runtime error, `Error { span }`. -/
abbrev PErr := Nat × Nat

/-- Universal value type standing for the `Output` types of the Rust
parsers: chars from `Just`, pairs from `Then`, lists from `Repeat`,
options from `OrNot`, unit from the lookaheads. -/
inductive Val : Type
  | ch (c : Char)
  | pair (a b : Val)
  | list (vs : List Val)
  | opt (v : Option Val)
  | unit

/-- The memoization kind attached to a non-terminal
(`middle.rs`, `enum MemoKind`). -/
inductive MemoKind : Type
  | noMemo
  | memorize
  | leftRec
deriving DecidableEq, Repr

/-- Deep syntax of the runtime parsers: each constructor corresponds to one
parser struct of `primitive.rs` / `combinator.rs` (`LookAhead` and
`LookAheadNot` are modelled from the spec, section 4.5, and the emission
templates documented on `ParseOp` in `middle.rs`, as their structs are not
under `src/`).  `call i` invokes non-terminal `i` of the grammar through its
memoization wrapper, as the generated `parse_memo` does. -/
inductive PP : Type
  | just (c : Char)
  | choiceP (ps : List PP)
  | thenP (p q : PP)
  | thenIgnore (p q : PP)
  | ignoreThen (p q : PP)
  | repeatP (atLeast : Nat) (p : PP)
  | orNot (p : PP)
  | lookAhead (p : PP)
  | lookAheadNot (p : PP)
  | call (i : Nat)

/-- A grammar: for each non-terminal index, its memoization kind and body. -/
abbrev Grammar := List (MemoKind × PP)

/-- Memo tables: one packrat table (`Memo<(T, usize)>`) and one left-recursion
table (`Memo<(Option<T>, usize)>`) per non-terminal id, all keyed by
`(id, position)`.  Insertion conses to the front; lookup takes the first
match, which matches `HashMap::insert` overwriting semantics. -/
structure MemoSt where
  mem : List ((Nat × Nat) × (Val × Nat))
  lrec : List ((Nat × Nat) × (Option Val × Nat))

def MemoSt.empty : MemoSt := ⟨[], []⟩

def MemoSt.memGet (m : MemoSt) (i p : Nat) : Option (Val × Nat) :=
  (m.mem.find? (fun e => e.1 = (i, p))).map (·.2)

def MemoSt.memInsert (m : MemoSt) (i p : Nat) (v : Val) (e : Nat) : MemoSt :=
  { m with mem := ((i, p), (v, e)) :: m.mem }

def MemoSt.lrecGet (m : MemoSt) (i p : Nat) : Option (Option Val × Nat) :=
  (m.lrec.find? (fun e => e.1 = (i, p))).map (·.2)

def MemoSt.lrecInsert (m : MemoSt) (i p : Nat) (v : Option Val) (e : Nat) : MemoSt :=
  { m with lrec := ((i, p), (v, e)) :: m.lrec }

/-- Result of one parser invocation: the `Result<T, Error>`, the state after
the call (interior mutability persists even past a failure), and the memo
tables after the call. -/
abbrev PRes := Except PErr Val × PState × MemoSt

mutual

/-- Fuel-indexed interpreter for the `primitive.rs` runtime.  Each equation is
the transcription of the corresponding `Parser::parse` impl:
`Just::parse`, `Choice::parse` (via `interpChoice`), `Then`, `ThenIgnore`,
`IgnoreThen`, `Repeat` (via `interpRepeat`), `OrNot` from `combinator.rs`,
the lookaheads, and `Memorize::parse` / `LeftRec::parse` (via `interpGrow`)
for `call`.  `none` means the fuel ran out (or an undefined non-terminal was
invoked, which panics in Rust). -/
def interp (g : Grammar) : Nat → PP → PState → MemoSt → Option PRes
  | 0, _, _, _ => none
  | Nat.succ f, pp, s, m =>
    match pp with
    | .just c =>
      match s.next with
      | (some t, s1) =>
        if t.kind = c then some (.ok (.ch c), s1, m)
        else some (.error s1.stSpan, s1, m)
      | (none, s1) => some (.error s1.stSpan, s1, m)
    | .choiceP ps => interpChoice g f ps s m
    | .thenP p q =>
      match interp g f p s m with
      | none => none
      | some (.error e, s1, m1) => some (.error e, s1, m1)
      | some (.ok v, s1, m1) =>
        match interp g f q s1 m1 with
        | none => none
        | some (.error e, s2, m2) => some (.error e, s2, m2)
        | some (.ok w, s2, m2) => some (.ok (.pair v w), s2, m2)
    | .thenIgnore p q =>
      match interp g f p s m with
      | none => none
      | some (.error e, s1, m1) => some (.error e, s1, m1)
      | some (.ok v, s1, m1) =>
        match interp g f q s1 m1 with
        | none => none
        | some (.error e, s2, m2) => some (.error e, s2, m2)
        | some (.ok _, s2, m2) => some (.ok v, s2, m2)
    | .ignoreThen p q =>
      match interp g f p s m with
      | none => none
      | some (.error e, s1, m1) => some (.error e, s1, m1)
      | some (.ok _, s1, m1) => interp g f q s1 m1
    | .repeatP atLeast p =>
      match interpRepeat g f p s.fork m with
      | none => none
      | some (vs, fk, m1) =>
        if vs.length < atLeast then some (.error s.stSpan, s, m1)
        else (s.advanceTo fk).map (fun s2 => (.ok (.list vs), s2, m1))
    | .orNot p =>
      match interp g f p s.fork m with
      | none => none
      | some (.ok v, fk, m1) =>
        (s.advanceTo fk).map (fun s2 => (.ok (.opt (some v)), s2, m1))
      | some (.error _, _, m1) => some (.ok (.opt none), s, m1)
    | .lookAhead p =>
      match interp g f p s.fork m with
      | none => none
      | some (.ok _, _, m1) => some (.ok .unit, s, m1)
      | some (.error e, _, m1) => some (.error e, s, m1)
    | .lookAheadNot p =>
      match interp g f p s.fork m with
      | none => none
      | some (.ok _, _, m1) => some (.error s.stSpan, s, m1)
      | some (.error _, _, m1) => some (.ok .unit, s, m1)
    | .call i =>
      match g.get? i with
      | none => none
      | some (.noMemo, body) => interp g f body s m
      | some (.memorize, body) =>
        match m.memGet i s.pos with
        | some (v, e) => (s.advanceToPos e).map (fun s2 => (.ok v, s2, m))
        | none =>
          match interp g f body s m with
          | none => none
          | some (.error e, s1, m1) => some (.error e, s1, m1)
          | some (.ok v, s1, m1) => some (.ok v, s1, m1.memInsert i s.pos v s1.pos)
      | some (.leftRec, body) =>
        match m.lrecGet i s.pos with
        | some (vo, e) =>
          match s.advanceToPos e with
          | none => none
          | some s2 =>
            match vo with
            | some v => some (.ok v, s2, m)
            | none => some (.error s2.stSpan, s2, m)
        | none => interpGrow g f i body s (m.lrecInsert i s.pos none s.pos) s.pos

/-- `Choice::parse` (`primitive.rs`): try the alternatives in order, each on a
fresh fork; commit the first success via `advance_to`; fail at the outer
state's span when all alternatives fail. -/
def interpChoice (g : Grammar) : Nat → List PP → PState → MemoSt → Option PRes
  | 0, _, _, _ => none
  | Nat.succ f, ps, s, m =>
    match ps with
    | [] => some (.error s.stSpan, s, m)
    | p :: rest =>
      match interp g f p s.fork m with
      | none => none
      | some (.ok v, fk, m1) =>
        (s.advanceTo fk).map (fun s2 => (.ok v, s2, m1))
      | some (.error _, _, m1) => interpChoice g f rest s m1

/-- The `while let Ok(value) = self.parser.parse(&fork)` loop of
`Repeat::parse` (`combinator.rs`): a single fork is threaded through all
iterations, and the state mutations of the final failing attempt persist in
the returned fork, exactly as in the source. -/
def interpRepeat (g : Grammar) : Nat → PP → PState → MemoSt →
    Option (List Val × PState × MemoSt)
  | 0, _, _, _ => none
  | Nat.succ f, p, fk, m =>
    match interp g f p fk m with
    | none => none
    | some (.error _, fk1, m1) => some ([], fk1, m1)
    | some (.ok v, fk1, m1) =>
      match interpRepeat g f p fk1 m1 with
      | none => none
      | some (vs, fk2, m2) => some (v :: vs, fk2, m2)

/-- The grow loop of `LeftRec::parse` (`primitive.rs`, lines 131-148):
runs the body on a fresh fork; a body failure is propagated by the `?`
operator; a non-growing success breaks with the fork's end and returns the
memoized entry; a growing success updates `memo[pos]` and iterates. -/
def interpGrow (g : Grammar) : Nat → Nat → PP → PState → MemoSt → Nat → Option PRes
  | 0, _, _, _, _, _ => none
  | Nat.succ f, i, body, s, m, last =>
    match interp g f body s.fork m with
    | none => none
    | some (.error e, _, m1) => some (.error e, s, m1)
    | some (.ok v, fk, m1) =>
      if fk.pos ≤ last then
        match s.advanceToPos fk.pos with
        | none => none
        | some s2 =>
          match m1.lrecGet i s.pos with
          | none => none
          | some (vo, _) =>
            match vo with
            | some v0 => some (.ok v0, s2, m1)
            | none => some (.error s2.stSpan, s2, m1)
      else interpGrow g f i body s (m1.lrecInsert i s.pos (some v) fk.pos) fk.pos

end

/-! ### The lexer-based runtime revision (`parse-it/src/parser.rs`)

`ParserState::parse_with` drives a lexer (`CharLexer` over a string); the
lexer state is a pair of byte offsets into the input.  `next` runs the lexer
(which advances the buffer) and `parse_with` applies the matcher to the token
it returns — note that the token is consumed before the matcher is asked. -/

/-- `LexerState<'a>` from `lexer.rs`: start/cursor offsets over the input
(characters stand in for bytes; the regex engine itself is out of scope, and
`CharLexer` consumes one character per token). -/
structure LexSt where
  start : Nat
  cursor : Nat
  input : List Char

/-- `CharLexer::next` via `LexerState::run`: if a character is available,
set `start` to the old cursor and advance `cursor` by one. -/
def LexSt.lexNext (s : LexSt) : Option Char × LexSt :=
  match s.input.get? s.cursor with
  | some c => (some c, { s with start := s.cursor, cursor := s.cursor + 1 })
  | none => (none, s)

/-- `LexerState::span`: the span of the most recent lexeme. -/
def LexSt.lexSpan (s : LexSt) : Nat × Nat := (s.start, s.cursor)

/-- `ParserState::parse_with` (`parser.rs` lines 123-128):
`self.next().and_then(matches).ok_or_else(|| self.error())`.  The returned
state reflects the mutation performed by `next`, also when the matcher
rejects the token. -/
def parseWith {α : Type} (matcher : Char → Option α) (s : LexSt) :
    Except (Nat × Nat) α × LexSt :=
  let (t, s1) := s.lexNext
  match t with
  | some tok =>
    match matcher tok with
    | some v => (.ok v, s1)
    | none => (.error s1.lexSpan, s1)
  | none => (.error s1.lexSpan, s1)

/-! ### The memoization functions of `parse-it/src/memo.rs`

`memorize` and `left_rec` are higher-order over the wrapped parser.  The
parser state is reduced to its cursor (`L::Position` is opaque, ordered and
cloneable; it is modelled by `Nat`), so a wrapped parser is a function from
the start cursor to either an error or a value and an end cursor.  For
`left_rec` the body additionally reads and writes the shared memo, since the
recursive descent re-enters the same table. -/

/-- `Memo<P, T>`: a map from positions to `(value, end)` pairs, modelled as
an association list with insert-at-front (`HashMap::insert` overwrites). -/
abbrev MemoT (T : Type) := List (Nat × T × Nat)

def memoGet {T : Type} (m : MemoT T) (p : Nat) : Option (T × Nat) :=
  (m.find? (fun e => e.1 = p)).map (fun e => (e.2.1, e.2.2))

def memoInsert {T : Type} (m : MemoT T) (p : Nat) (v : T) (e : Nat) : MemoT T :=
  (p, v, e) :: m

/-- An error of the lexer revision carries a span; only the position at which
the error was raised matters to the claims, so errors are bare cursors. -/
abbrev MErr := Nat

/-- `memorize` (`memo.rs` lines 51-66): on a memo hit advance to the stored
end and return the stored value; on a miss run the parser, and only if it
succeeds record `(value, end)` at the start position. -/
def memorizeF {T : Type} (parser : Nat → Except MErr (T × Nat)) (pos : Nat)
    (memo : MemoT T) : Except MErr (T × Nat) × MemoT T :=
  match memoGet memo pos with
  | some (v, e) => (.ok (v, e), memo)
  | none =>
    match parser pos with
    | .error err => (.error err, memo)
    | .ok (v, e) => (.ok (v, e), memoInsert memo pos v e)

/-- The grow loop of `left_rec` (`memo.rs` lines 116-126): run the body on a
fork of the state (same cursor `pos`, shared memo); a body failure BREAKS the
loop; a non-growing success breaks; a growing success updates `last` and
`memo[pos]` and iterates.  The result is the final `last` pair together with
the memo. -/
def leftRecGrowF {T : Type}
    (body : Nat → MemoT (Option T) → Except MErr (T × Nat) × MemoT (Option T))
    (pos : Nat) : Nat → (Option T × Nat) → MemoT (Option T) →
      Option ((Option T × Nat) × MemoT (Option T))
  | 0, _, _ => none
  | Nat.succ f, last, memo =>
    match body pos memo with
    | (.error _, memo1) => some (last, memo1)
    | (.ok (v, e), memo1) =>
      if e ≤ last.2 then some (last, memo1)
      else leftRecGrowF body pos f (some v, e) (memoInsert memo1 pos (some v) e)

/-- `left_rec` (`memo.rs` lines 101-130): memo hit replays the stored
outcome (advancing to the stored end, failing there if the stored value is
`None`); otherwise the failure seed `(None, pos)` is installed, the grow loop
runs, the state advances to `last.end` and `last.value_opt` is returned, or a
failure at that position if it is `None`. -/
def leftRecF {T : Type}
    (body : Nat → MemoT (Option T) → Except MErr (T × Nat) × MemoT (Option T))
    (pos : Nat) (memo : MemoT (Option T)) (fuel : Nat) :
    Option (Except MErr (T × Nat) × MemoT (Option T)) :=
  match memoGet memo pos with
  | some (vo, e) =>
    match vo with
    | some v => some (.ok (v, e), memo)
    | none => some (.error e, memo)
  | none =>
    match leftRecGrowF body pos fuel (none, pos) (memoInsert memo pos none pos) with
    | none => none
    | some (last, memo1) =>
      match last.1 with
      | some v => some (.ok (v, last.2), memo1)
      | none => some (.error last.2, memo1)

/-! ### Left-recursion analysis (`parse-it-codegen/src/frontend.rs` 126-150)

Identifiers are modelled by `Nat`.  The left-call graph is an association
list from each non-terminal to its left-call list; `HashSet` iteration order
is an arbitrary but fixed list order.  The `OrderedSet` worklist is a list
with insert-at-back-if-absent and pop-from-back, as in `hashlink`. -/

/-- The left-call graph: `ctx.left_calls`. -/
abbrev LGraph := List (Nat × List Nat)

def LGraph.depsOf (g : LGraph) (n : Nat) : List Nat :=
  match g.find? (fun e => e.1 = n) with
  | some e => e.2
  | none => []

def LGraph.keys (g : LGraph) : List Nat := g.map (·.1)

/-- `OrderedSet::insert`: append if absent; returns whether the element was
newly inserted. -/
def osInsert (st : List Nat) (x : Nat) : List Nat × Bool :=
  if x ∈ st then (st, false) else (st ++ [x], true)

/-- `OrderedSet::pop_back`: remove and return the most recently inserted
element. -/
def osPopBack (st : List Nat) : Option (Nat × List Nat) :=
  match st.getLast? with
  | some x => some (x, st.dropLast)
  | none => none

/-- `HashSet::insert` on the result set (membership only). -/
def lrInsert (lr : List Nat) (x : Nat) : List Nat :=
  if x ∈ lr then lr else lr ++ [x]

/-- The `for dep in &ctx.left_calls[name]` loop of `analyze_left_recursion`:
skip deps already marked; otherwise insert the dep into the worklist, and if
it was already present or equals the popped node, mark the popped node and
break. -/
def scanDeps (name : Nat) : List Nat → List Nat → List Nat → List Nat × List Nat
  | [], st, lr => (st, lr)
  | d :: ds, st, lr =>
    if d ∈ lr then scanDeps name ds st lr
    else
      let (st1, fresh) := osInsert st d
      if !fresh || d = name then (st1, lrInsert lr name)
      else scanDeps name ds st1 lr

/-- The `while let Some(name) = stack.pop_back()` loop of
`analyze_left_recursion`, fuel-indexed since the source loop can diverge. -/
def lrLoop (g : LGraph) : Nat → List Nat → List Nat → Option (List Nat)
  | 0, _, _ => none
  | Nat.succ f, st, lr =>
    match osPopBack st with
    | none => some lr
    | some (name, st1) =>
      let (st2, lr1) := scanDeps name (g.depsOf name) st1 lr
      lrLoop g f st2 lr1

/-- The outer `for name in ctx.left_calls.keys()` loop. -/
def lrOuter (g : LGraph) (fuel : Nat) : List Nat → List Nat → Option (List Nat)
  | [], lr => some lr
  | n :: ns, lr =>
    if n ∈ lr then lrOuter g fuel ns lr
    else
      match lrLoop g fuel [n] lr with
      | none => none
      | some lr1 => lrOuter g fuel ns lr1

/-- `ParseIt::analyze_left_recursion`: the computed `ctx.left_recursion`
set (`parser/frontend.rs` lines 73-97 are textually identical). -/
def analyzeLR (g : LGraph) (fuel : Nat) : Option (List Nat) :=
  lrOuter g fuel g.keys []

/-- The memoization kind chosen by `Parser::compile` (`frontend.rs`
lines 186-190): `LeftRec` iff the name is in the left-recursion set. -/
def memoKindOf (lr : List Nat) (name : Nat) : MemoKind :=
  if name ∈ lr then .leftRec else .memorize

/-- Bounded reachability in the left-call graph: `reachN g f n` is the set of
nodes reachable from `n` in at most `f` steps (following at least zero
edges from the successors of `n`). -/
def reachStep (g : LGraph) (frontier : List Nat) : List Nat :=
  frontier.foldl (fun acc n => (g.depsOf n).foldl lrInsert acc) frontier

def reachN (g : LGraph) : Nat → List Nat → List Nat
  | 0, frontier => frontier
  | Nat.succ f, frontier => reachN g f (reachStep g frontier)

/-- A node lies on a directed cycle of the left-call graph iff it is
reachable from one of its own successors; `g.keys.length` steps are enough
to saturate. -/
def onCycle (g : LGraph) (n : Nat) : Bool :=
  n ∈ reachN g (g.keys.length + 1) (g.depsOf n)

/-! ### Transitive dependency closure (`frontend.rs` 152-171, 358-381)

The grammar AST fragment relevant to `analyze_direct_depends` is `Atom`
(`syntax.rs`); capture modes, literals and patterns do not contribute
dependencies and are not represented.  `Sub` holds a production, i.e. a
non-empty list of parts; the part's atom is what matters. -/

/-- `Atom` from `syntax.rs`, with non-terminal names as `Nat` and the
dependency-irrelevant payloads (literals, patterns) dropped. -/
inductive AtomD : Type
  | terminal
  | patTerminal
  | nonTerminal (n : Nat)
  | sub (parts : List AtomD)
  | choiceA (first : AtomD) (rest : List AtomD)
  | repeatA (a : AtomD)
  | repeat1 (a : AtomD)
  | optionalA (a : AtomD)
  | lookAheadA (a : AtomD)
  | lookAheadNotA (a : AtomD)

/-- `OrderedMap` keyed by name, modelled as the key list in insertion order;
`insert` keeps the first position of an existing key. -/
def odInsert (l : List Nat) (x : Nat) : List Nat :=
  if x ∈ l then l else l ++ [x]

mutual

/-- `Atom::analyze_direct_depends` (`frontend.rs` 358-381): record every
non-terminal other than the current parser, in discovery order. -/
def AtomD.dirDeps (curr : Nat) : AtomD → List Nat → List Nat
  | .terminal, acc => acc
  | .patTerminal, acc => acc
  | .nonTerminal n, acc => if n ≠ curr then odInsert acc n else acc
  | .sub parts, acc => AtomD.dirDepsList curr parts acc
  | .choiceA first rest, acc => AtomD.dirDepsList curr rest (first.dirDeps curr acc)
  | .repeatA a, acc => a.dirDeps curr acc
  | .repeat1 a, acc => a.dirDeps curr acc
  | .optionalA a, acc => a.dirDeps curr acc
  | .lookAheadA a, acc => a.dirDeps curr acc
  | .lookAheadNotA a, acc => a.dirDeps curr acc

def AtomD.dirDepsList (curr : Nat) : List AtomD → List Nat → List Nat
  | [], acc => acc
  | a :: as_, acc => AtomD.dirDepsList curr as_ (a.dirDeps curr acc)

end

/-- A parser's body for the dependency analysis: the parts of all rules'
productions in order (`Parser::analyze_direct_depends` folds
`rule.production.analyze_direct_depends` over the rules, and a production
folds over its parts). -/
def parserDirDeps (curr : Nat) (rules : List (List AtomD)) : List Nat :=
  rules.foldl (fun acc parts => AtomD.dirDepsList curr parts acc) []

/-- A grammar for the dependency analysis: each non-terminal with the part
atoms of its rules. -/
abbrev DGraph := List (Nat × List (List AtomD))

def DGraph.direct (g : DGraph) (n : Nat) : List Nat :=
  match g.find? (fun e => e.1 = n) with
  | some e => parserDirDeps n e.2
  | none => []

/-- The `while let Some(name) = stack.pop()` loop of `analyze_depends`
(`frontend.rs` 158-168): a `Vec` used as a LIFO stack (head of the list is
the top), a visited `OrderedMap` in insertion order; popping an unvisited
name records it and pushes its direct dependencies (`Vec::extend` pushes in
list order, so they pop in reverse order). -/
def depDfs (g : DGraph) : Nat → List Nat → List Nat → Option (List Nat)
  | 0, _, _ => none
  | Nat.succ f, visited, stack =>
    match stack with
    | [] => some visited
    | n :: rest =>
      if n ∈ visited then depDfs g f visited rest
      else depDfs g f (visited ++ [n]) ((g.direct n).reverse ++ rest)

/-- `ParseIt::analyze_depends` for one non-terminal: run the stack walk from
`[name]` and finally `depends.remove(name)`. -/
def transDeps (g : DGraph) (n : Nat) (fuel : Nat) : Option (List Nat) :=
  match depDfs g fuel [] [n] with
  | none => none
  | some visited => some (visited.erase n)

/-- Reachability along direct-dependency edges (zero or more steps). -/
inductive DReach (g : DGraph) : Nat → Nat → Prop
  | refl (n : Nat) : DReach g n n
  | step {a b c : Nat} : DReach g a b → c ∈ g.direct b → DReach g a c

/-! ### Capture algebra and the `then` builder (`middle.rs`)

`syn::Pat` patterns, `syn::Lit` literals and `syn::Expr` actions are opaque
to the capture algebra; they are modelled by `Nat` identifiers compared for
equality (`Box<syn::Pat>` equality is structural). -/

/-- `Capture` from `middle.rs` (the source spells `Slient`). -/
inductive CaptureE : Type
  | loud
  | slient
  | named (p : Nat) (c : CaptureE)
  | tuple (a b : CaptureE)
  | tupleVec (ids : List Nat)
deriving DecidableEq

/-- `Capture::is_loud`. -/
def CaptureE.isLoud : CaptureE → Bool
  | .loud => true
  | .slient => false
  | .named _ _ => true
  | .tuple _ n => n.isLoud
  | .tupleVec _ => true

/-- `Capture::to_anonymous`. -/
def CaptureE.toAnonymous (c : CaptureE) : CaptureE :=
  if c.isLoud then .loud else .slient

/-- Unification errors: a pattern mismatch carries the offending pattern
(`quote_spanned! p1.span`), a capture mismatch carries no payload. -/
inductive UErr : Type
  | patMismatch (p : Nat)
  | capMismatch
deriving DecidableEq

/-- `Capture::unify` (`middle.rs` lines 82-109), match arms in source
order. -/
def CaptureE.unify : CaptureE → CaptureE → Except UErr CaptureE
  | .named p1 c1, .named p2 c2 =>
    if p1 = p2 then
      match c1.unify c2 with
      | .ok c => .ok (.named p1 c)
      | .error _ => .ok (.named p1 .loud)
    else .error (.patMismatch p1)
  | .tuple c1 c2, .tuple c3 c4 =>
    match c1.unify c3 with
    | .error e => .error e
    | .ok d1 =>
      match c2.unify c4 with
      | .error e => .error e
      | .ok d2 => .ok (.tuple d1 d2)
  | .loud, _ => .ok .loud
  | _, .loud => .ok .loud
  | .slient, .slient => .ok .slient
  | _, _ => .error .capMismatch

mutual

/-- `Parsing` from `middle.rs`: the ordered `ValueId → ParseOp` table plus
the output capture.  `Value::next()` draws from a thread-local counter; the
fresh id is passed explicitly to the builders. -/
inductive ParsingE : Type
  | mk (values : List (Nat × OpE)) (capture : CaptureE)

/-- `ParseOp` from `middle.rs`; literals, patterns and action expressions
are opaque `Nat` payloads. -/
inductive OpE : Type
  | justOp (lit : Nat)
  | patOp (pat : Nat) (binds : List Nat)
  | callOp (parser : Nat) (depends : List Nat)
  | mapOp (parser : Nat) (cap : CaptureE) (expr : Nat)
  | thenOp (prev : Nat) (next : ParsingE)
  | thenIgnoreOp (prev : Nat) (next : ParsingE)
  | ignoreThenOp (prev : Nat) (next : ParsingE)
  | repeatOp (parser : ParsingE) (atLeast : Nat)
  | optionalOp (parser : ParsingE)
  | lookAheadOp (parser : ParsingE)
  | lookAheadNotOp (parser : ParsingE)
  | choiceOp (parsers : List ParsingE)

end

def ParsingE.values : ParsingE → List (Nat × OpE)
  | .mk vs _ => vs

def ParsingE.capture : ParsingE → CaptureE
  | .mk _ c => c

/-- `Parsing::result`: the id of the last emitted op (the source `expect`s a
non-empty table; builders only produce non-empty ones, `0` is a dummy for
the impossible case). -/
def ParsingE.result (p : ParsingE) : Nat :=
  match p.values.getLast? with
  | some e => e.1
  | none => 0

/-- `Parsing::just`: a single `Just` op with a `Slient` capture. -/
def ParsingE.just (fresh : Nat) (lit : Nat) : ParsingE :=
  .mk [(fresh, .justOp lit)] .slient

/-- `Parsing::then` (`middle.rs` lines 173-188): choose the op by the
loudness of the two captures and update the capture accordingly, then push
the op with a fresh id. -/
def ParsingE.then (fresh : Nat) (self next : ParsingE) : ParsingE :=
  match self.capture.isLoud, next.capture.isLoud with
  | true, false =>
    .mk (self.values ++ [(fresh, .thenIgnoreOp self.result next)]) self.capture
  | false, true =>
    .mk (self.values ++ [(fresh, .ignoreThenOp self.result next)]) next.capture
  | true, true =>
    .mk (self.values ++ [(fresh, .thenOp self.result next)])
      (.tuple self.capture next.capture)
  | false, false =>
    .mk (self.values ++ [(fresh, .thenOp self.result next)])
      (.tuple self.capture next.capture)

/-! ### The self-rewriter (`parse-it-codegen/src/utils.rs`)

Token streams and `syn` expressions are modelled by a small faithful
fragment: enough structure to express identifier rewriting and the
re-serialization of allow-listed macro argument lists.  `syn` itself is an
external dependency; its `parse_terminated` / `ToTokens` behavior is
modelled on the fragment (single-token literal or path arguments, separated
by commas, optional trailing comma). -/

/-- A token of a macro argument stream. -/
inductive TokE : Type
  | tokIdent (s : String)
  | tokLit (s : String)
  | tokComma
deriving DecidableEq

/-- A host expression: paths (bare identifiers), literals, a binary
compound standing for the recursive expression forms the visitor descends
into, and macro invocations carrying their raw argument tokens. -/
inductive ExprE : Type
  | evar (s : String)
  | elit (s : String)
  | ebin (l r : ExprE)
  | emac (path : String) (toks : List TokE)
deriving DecidableEq

/-- Split a token stream at commas (top level; the fragment has no nested
groups). -/
def splitArgs : List TokE → List (List TokE)
  | [] => [[]]
  | .tokComma :: rest => [] :: splitArgs rest
  | t :: rest =>
    match splitArgs rest with
    | [] => [[t]]
    | seg :: segs => (t :: seg) :: segs

/-- Parse one comma-separated segment as an expression (the modelled
fragment of `syn::Expr::parse`). -/
def parseSeg : List TokE → Option ExprE
  | [.tokLit s] => some (.elit s)
  | [.tokIdent s] => some (.evar s)
  | _ => none

/-- Parse every comma-separated segment, failing if any segment fails. -/
def parseSegs : List (List TokE) → Option (List ExprE)
  | [] => some []
  | seg :: segs =>
    match parseSeg seg, parseSegs segs with
    | some e, some es => some (e :: es)
    | _, _ => none

/-- The modelled `Punctuated::<syn::Expr, Token![,]>::parse_terminated`: an
optional trailing comma is allowed, every segment must parse. -/
def parseArgs (toks : List TokE) : Option (List ExprE) :=
  let segs := splitArgs toks
  let segs := if segs.getLast? = some [] then segs.dropLast else segs
  parseSegs segs

/-- The modelled `ToTokens` printing of a fragment expression
(`lit.to_token_stream()` for literals, `quote! { #expr }` otherwise). -/
def ExprE.toToks : ExprE → List TokE
  | .evar s => [.tokIdent s]
  | .elit s => [.tokLit s]
  | .ebin l r => l.toToks ++ r.toToks
  | .emac _ toks => toks

/-- The re-serialization loop of `visit_macro_mut` (`utils.rs` lines
49-61): emit each rewritten argument followed by a comma. -/
def serializeArgs (args : List ExprE) : List TokE :=
  args.foldl (fun acc e => acc ++ e.toToks ++ [.tokComma]) []

/-- The identifier the rewriter substitutes for `self`
(`format_ident!("r#__self")`). -/
def selfIdent : String := "__self"

/-- The recursive visit applied to a re-parsed macro argument.  On the
modelled fragment every parsed argument is a single literal or path
(`parseSeg`), so `visit_expr_mut` specializes to the identifier rewrite of
`visit_ident_mut`. -/
def rewriteArg : ExprE → ExprE × Bool
  | .evar s => if s = "self" then (.evar selfIdent, true) else (.evar s, false)
  | e => (e, false)

/-- `RewriteSelfVisitor` (`utils.rs`): rewrite `self` identifiers, descend
into allow-listed macros by re-parsing their argument tokens, rewriting each
argument and re-serializing; return the rewritten expression and the
`referred_self` flag. -/
def rewriteExpr (allow : List String) : ExprE → ExprE × Bool
  | .evar s => if s = "self" then (.evar selfIdent, true) else (.evar s, false)
  | .elit s => (.elit s, false)
  | .ebin l r =>
    let lw := rewriteExpr allow l
    let rw := rewriteExpr allow r
    (.ebin lw.1 rw.1, lw.2 || rw.2)
  | .emac path toks =>
    if path ∈ allow then
      match parseArgs toks with
      | some args =>
        let rws := args.map rewriteArg
        (.emac path (serializeArgs (rws.map (·.1))), (rws.map (·.2)).any id)
      | none => (.emac path toks, false)
    else (.emac path toks, false)

/-- Whether the identifier `self` occurs anywhere in the action, macro
argument tokens included. -/
def noSelfTok : TokE → Bool
  | .tokIdent s => s ≠ "self"
  | _ => true

def ExprE.noSelf : ExprE → Bool
  | .evar s => s ≠ "self"
  | .elit _ => true
  | .ebin l r => l.noSelf && r.noSelf
  | .emac _ toks => toks.all noSelfTok

/-- Whether the action contains an allow-listed macro invocation whose
argument tokens re-parse successfully (such macros are re-serialized by the
visitor even without any `self`). -/
def ExprE.reserializes (allow : List String) : ExprE → Bool
  | .ebin l r => l.reserializes allow || r.reserializes allow
  | .emac path toks => decide (path ∈ allow) && (parseArgs toks).isSome
  | _ => false

/-- The synthetic `__self` binder pattern used by `Rule::compile`. -/
def selfPat : Nat := 0

/-- The capture adjustment of `Rule::compile` (`frontend.rs` lines
233-252): wrap the production's capture in `Named(__self, ·)` iff the
rewriter reported a `self` reference. -/
def ruleCapture (referred : Bool) (cap : CaptureE) : CaptureE :=
  if referred then .named selfPat cap else cap

/-! ### Concrete instances used by the counterexamples and witnesses -/

/-- A grammar with one left-recursive non-terminal whose body is
`!self 'a'` (lookahead-not on the recursive call, then the terminal `'a'`):
the body succeeds on the first grow iteration and fails on the second, once
the memo records the success. -/
def lrecDemoGrammar : Grammar :=
  [(.leftRec, .ignoreThen (.lookAheadNot (.call 0)) (.just 'a'))]

/-- The input `"a"` tokenized for the demo grammar. -/
def lrecDemoState : PState := ⟨[⟨'a', (0, 1)⟩], 0⟩

/-- The same body expressed against the `memo.rs` seed protocol, for
`left_rec`: the recursive call resolves through the shared memo at
position `0` (always populated during the grow loop), `lookahead-not`
inverts it, and the `'a'` terminal consumes one token. -/
def lrecDemoBody : Nat → MemoT (Option Char) →
    Except MErr (Char × Nat) × MemoT (Option Char) :=
  fun pos memo =>
    match memoGet memo 0 with
    | some (some _, _) => (.error pos, memo)
    | _ => if pos = 0 then (.ok ('a', 1), memo) else (.error pos, memo)

/-- Left-call graph with `A = 0` (left-calls `A`, `B`) and `B = 1`
(left-calls `A`): both nodes lie on the cycle `A → B → A`, and `A` also has
a self-loop. -/
def cycleDemoGraph : LGraph := [(0, [0, 1]), (1, [0])]

/-- Dependency-analysis grammar: `0 → 1 2`, `1 → 2`, `2 → terminal`,
`3 → 3`. -/
def depsDemoGraph : DGraph :=
  [(0, [[.nonTerminal 1, .nonTerminal 2]]),
   (1, [[.nonTerminal 2]]),
   (2, [[.terminal]]),
   (3, [[.nonTerminal 3]])]

/-! ## Theorems -/

theorem memoGet_insert_self {T : Type} (m : MemoT T) (p : Nat) (v : T) (e : Nat) :
    memoGet (memoInsert m p v e) p = some (v, e) := by
  simp [memoGet, memoInsert, List.find?]

/-- C2: on a memo hit, `memorize` advances to the stored end cursor and
returns the stored value without invoking the inner parser (the outcome is
the same for any two inner parsers); and when a `memorize` call succeeds,
repeating it at the same cursor with the resulting memo returns the same
value and the same end cursor. -/
theorem c2_memorize_hit_and_idempotent {T : Type}
    (parser parser2 : Nat → Except MErr (T × Nat)) (pos : Nat) (memo : MemoT T) :
    (∀ v e, memoGet memo pos = some (v, e) →
      memorizeF parser pos memo = (.ok (v, e), memo) ∧
      memorizeF parser2 pos memo = memorizeF parser pos memo) ∧
    (∀ v e memo1, memorizeF parser pos memo = (.ok (v, e), memo1) →
      memorizeF parser pos memo1 = (.ok (v, e), memo1)) ∧
    (∀ (g : Grammar) (f i : Nat) (body : PP) (s : PState) (m : MemoSt) v e,
      g.get? i = some (.memorize, body) → m.memGet i s.pos = some (v, e) →
      s.pos ≤ e →
      interp g (f + 1) (.call i) s m = some (.ok v, { s with pos := e }, m)) := by
  refine ⟨?_, ?_, ?_⟩
  · intro v e h
    constructor <;> simp [memorizeF, h]
  · intro v e memo1 h
    cases h0 : memoGet memo pos with
    | some ve =>
      obtain ⟨v0, e0⟩ := ve
      simp only [memorizeF, h0, Prod.mk.injEq, Except.ok.injEq] at h
      obtain ⟨⟨hv, he⟩, hm⟩ := h
      subst hv; subst he; subst hm
      simp [memorizeF, h0]
    | none =>
      simp only [memorizeF, h0] at h
      cases hp : parser pos with
      | error err => rw [hp] at h; simp at h
      | ok ve =>
        obtain ⟨v0, e0⟩ := ve
        rw [hp] at h
        simp only [Prod.mk.injEq, Except.ok.injEq] at h
        obtain ⟨⟨hv, he⟩, hm⟩ := h
        subst hv; subst he; subst hm
        simp [memorizeF, memoGet_insert_self]
  · intro g f i body s m v e hg hget hle
    simp only [interp, hg, hget, PState.advanceToPos, if_pos hle, Option.map_some']

/-- Witness for C2 at a concrete memo and parser. -/
theorem c2_memorize_witness :
    memorizeF (fun _ => Except.ok ((7 : Nat), 9)) 5 [(5, 7, 6)] = (.ok (7, 6), [(5, 7, 6)]) ∧
    memorizeF (fun _ => Except.ok ((7 : Nat), 9)) 3 [(3, 7, 9)] = (.ok (7, 9), [(3, 7, 9)]) ∧
    interp [(.memorize, .just 'a')] 1 (.call 0) ⟨[⟨'a', (0, 1)⟩], 0⟩
        ⟨[((0, 0), (.ch 'a', 1))], []⟩ =
      some (.ok (.ch 'a'), ⟨[⟨'a', (0, 1)⟩], 1⟩, ⟨[((0, 0), (.ch 'a', 1))], []⟩) :=
  ⟨((c2_memorize_hit_and_idempotent (fun _ => Except.ok ((7 : Nat), 9))
      (fun _ => Except.ok ((7 : Nat), 9)) 5 [(5, 7, 6)]).1 7 6 rfl).1,
   (c2_memorize_hit_and_idempotent (fun _ => Except.ok ((7 : Nat), 9))
      (fun _ => Except.ok ((7 : Nat), 9)) 3 []).2.1 7 9 [(3, 7, 9)] rfl,
   (c2_memorize_hit_and_idempotent (fun _ => Except.ok ((7 : Nat), 9))
      (fun _ => Except.ok ((7 : Nat), 9)) 3 []).2.2 [(.memorize, .just 'a')] 0 0
      (.just 'a') ⟨[⟨'a', (0, 1)⟩], 0⟩ ⟨[((0, 0), (.ch 'a', 1))], []⟩ (.ch 'a') 1
      rfl rfl (by decide)⟩

/-- C10: when the memo has no entry at the position and the inner parser
fails there, `memorize` returns exactly the inner error and the memo map is
returned unchanged — no failure is recorded — so a later parser at the same
position runs again (a subsequent call with a succeeding inner parser takes
the miss path and inserts its success). -/
theorem c10_memorize_no_failure_caching {T : Type}
    (parser : Nat → Except MErr (T × Nat)) (pos : Nat) (memo : MemoT T)
    (err : MErr) (hmiss : memoGet memo pos = none)
    (hfail : parser pos = .error err) :
    memorizeF parser pos memo = (.error err, memo) ∧
    (∀ (q : Nat → Except MErr (T × Nat)) w d, q pos = .ok (w, d) →
      memorizeF q pos memo = (.ok (w, d), memoInsert memo pos w d)) := by
  constructor
  · simp [memorizeF, hmiss, hfail]
  · intro q w d hq
    simp [memorizeF, hmiss, hq]

/-- Witness for C10 at a concrete failing parser and empty memo. -/
theorem c10_memorize_witness :
    memorizeF (fun p => (Except.error p : Except MErr ((Nat × Nat) × Nat))) 4 []
      = (.error 4, []) ∧
    memorizeF (fun _ => Except.ok (((1, 2) : Nat × Nat), 8)) 4 [] =
      (.ok ((1, 2), 8), [(4, (1, 2), 8)]) :=
  ⟨(c10_memorize_no_failure_caching
      (fun p => (Except.error p : Except MErr ((Nat × Nat) × Nat))) 4 [] 4 rfl rfl).1,
   (c10_memorize_no_failure_caching
      (fun p => (Except.error p : Except MErr ((Nat × Nat) × Nat))) 4 [] 4 rfl rfl).2
     (fun _ => Except.ok ((1, 2), 8)) (1, 2) 8 rfl⟩

/-- C7 counterexample: sequencing two silent captures (two literal
terminals) with `then` produces a `Tuple` capture, refuting "a Tuple capture
only ever arises from sequencing two loud captures". -/
theorem c7_counterexample_tuple_of_silents :
    (ParsingE.then 2 (ParsingE.just 0 10) (ParsingE.just 1 11)).capture
        = CaptureE.tuple .slient .slient ∧
    CaptureE.slient.isLoud = false := by
  exact ⟨rfl, rfl⟩

/-- C7 (amended): `then` emits `ThenIgnore` keeping the left capture for
loud-then-silent, `IgnoreThen` taking the right capture for
silent-then-loud, and otherwise — when the two sides have EQUAL loudness,
both loud or both silent — `Then` with a `Tuple` of the two captures. -/
theorem c7_then_op_selection (fresh : Nat) (a b : ParsingE) :
    (a.capture.isLoud = true → b.capture.isLoud = false →
      ParsingE.then fresh a b =
        .mk (a.values ++ [(fresh, .thenIgnoreOp a.result b)]) a.capture) ∧
    (a.capture.isLoud = false → b.capture.isLoud = true →
      ParsingE.then fresh a b =
        .mk (a.values ++ [(fresh, .ignoreThenOp a.result b)]) b.capture) ∧
    (a.capture.isLoud = b.capture.isLoud →
      ParsingE.then fresh a b =
        .mk (a.values ++ [(fresh, .thenOp a.result b)])
          (.tuple a.capture b.capture)) := by
  refine ⟨fun h1 h2 => ?_, fun h1 h2 => ?_, fun h => ?_⟩
  · simp [ParsingE.then, h1, h2]
  · simp [ParsingE.then, h1, h2]
  · cases h1 : a.capture.isLoud <;> rw [h1] at h <;>
      simp [ParsingE.then, h1, ← h]

/-- Witness for C7 at concrete parsings of each loudness combination. -/
theorem c7_then_witness :
    ParsingE.then 2 (ParsingE.mk [(0, .callOp 0 [])] .loud) (ParsingE.just 1 11) =
      .mk [(0, .callOp 0 []), (2, .thenIgnoreOp 0 (ParsingE.just 1 11))] .loud ∧
    ParsingE.then 2 (ParsingE.just 0 10) (ParsingE.mk [(1, .callOp 0 [])] .loud) =
      .mk [(0, .justOp 10), (2, .ignoreThenOp 0 (ParsingE.mk [(1, .callOp 0 [])] .loud))]
        .loud ∧
    ParsingE.then 2 (ParsingE.just 0 10) (ParsingE.just 1 11) =
      .mk [(0, .justOp 10), (2, .thenOp 0 (ParsingE.just 1 11))]
        (.tuple .slient .slient) :=
  ⟨(c7_then_op_selection 2 (ParsingE.mk [(0, .callOp 0 [])] .loud)
      (ParsingE.just 1 11)).1 rfl rfl,
   (c7_then_op_selection 2 (ParsingE.just 0 10)
      (ParsingE.mk [(1, .callOp 0 [])] .loud)).2.1 rfl rfl,
   (c7_then_op_selection 2 (ParsingE.just 0 10) (ParsingE.just 1 11)).2.2 rfl⟩

/-- C8: capture unification is symmetric: `unify a b` succeeds iff
`unify b a` succeeds, and with the same resulting capture (stated as
equality of the `Option`-collapsed results, which identifies the error
payloads while keeping success values). -/
theorem c8_unify_symmetric (a b : CaptureE) :
    (CaptureE.unify a b).toOption = (CaptureE.unify b a).toOption := by
  induction a generalizing b with
  | loud => cases b <;> rfl
  | slient => cases b <;> rfl
  | tupleVec ids => cases b <;> rfl
  | named p c ih =>
    cases b with
    | loud => rfl
    | slient => rfl
    | tupleVec ids => rfl
    | tuple x y => rfl
    | named p2 c2 =>
      simp only [CaptureE.unify]
      by_cases hp : p = p2
      · subst hp
        simp only [if_pos rfl]
        have h := ih c2
        cases h1 : c.unify c2 with
        | ok d =>
          cases h2 : c2.unify c with
          | ok d2 =>
            have hd : d = d2 := by
              rw [h1, h2] at h
              simpa [Except.toOption] using h
            subst hd; rfl
          | error e2 =>
            rw [h1, h2] at h
            simp [Except.toOption] at h
        | error e1 =>
          cases h2 : c2.unify c with
          | ok d2 =>
            rw [h1, h2] at h
            simp [Except.toOption] at h
          | error e2 => rfl
      · rw [if_neg hp, if_neg (fun hco => hp hco.symm)]
        rfl
  | tuple x y ihx ihy =>
    cases b with
    | loud => rfl
    | slient => rfl
    | tupleVec ids => rfl
    | named p2 c2 => rfl
    | tuple z w =>
      simp only [CaptureE.unify]
      have hx := ihx z
      have hy := ihy w
      cases h1 : x.unify z with
      | ok d1 =>
        cases h2 : z.unify x with
        | ok d1r =>
          have hd1 : d1 = d1r := by
            rw [h1, h2] at hx
            simpa [Except.toOption] using hx
          subst hd1
          cases h3 : y.unify w with
          | ok d2 =>
            cases h4 : w.unify y with
            | ok d2r =>
              have hd2 : d2 = d2r := by
                rw [h3, h4] at hy
                simpa [Except.toOption] using hy
              subst hd2; rfl
            | error e4 =>
              rw [h3, h4] at hy
              simp [Except.toOption] at hy
          | error e3 =>
            cases h4 : w.unify y with
            | ok d2r =>
              rw [h3, h4] at hy
              simp [Except.toOption] at hy
            | error e4 => rfl
        | error e2 =>
          rw [h1, h2] at hx
          simp [Except.toOption] at hx
      | error e1 =>
        cases h2 : z.unify x with
        | ok d1r =>
          rw [h1, h2] at hx
          simp [Except.toOption] at hx
        | error e2 => rfl

theorem advanceToPos_spec {s s2 : PState} {e : Nat}
    (h : s.advanceToPos e = some s2) :
    s.pos ≤ s2.pos ∧ s2.tokens = s.tokens ∧ s2.pos = e := by
  unfold PState.advanceToPos at h
  split at h
  · simp only [Option.some.injEq] at h
    subst h
    exact ⟨by assumption, rfl, rfl⟩
  · exact absurd h (by simp)

theorem next_spec (s : PState) :
    s.pos ≤ s.next.2.pos ∧ s.next.2.tokens = s.tokens := by
  unfold PState.next
  cases s.tokens.get? s.pos <;> simp

/-- Cursor monotonicity of every runtime op (success or failure): no code
path moves a state's cursor backward, and the token buffer is shared
untouched.  Proved simultaneously for the four mutually recursive
interpreter functions. -/
theorem interpMono (g : Grammar) : ∀ f : Nat,
    (∀ pp s m r s1 m1, interp g f pp s m = some (r, s1, m1) →
        s.pos ≤ s1.pos ∧ s1.tokens = s.tokens) ∧
    (∀ ps s m r s1 m1, interpChoice g f ps s m = some (r, s1, m1) →
        s.pos ≤ s1.pos ∧ s1.tokens = s.tokens) ∧
    (∀ p s m vs s1 m1, interpRepeat g f p s m = some (vs, s1, m1) →
        s.pos ≤ s1.pos ∧ s1.tokens = s.tokens) ∧
    (∀ i body s m last r s1 m1, interpGrow g f i body s m last = some (r, s1, m1) →
        s.pos ≤ s1.pos ∧ s1.tokens = s.tokens) := by
  intro f
  induction f with
  | zero =>
    refine ⟨?_, ?_, ?_, ?_⟩
    · intro pp s m r s1 m1 h
      exact absurd h (by simp [interp])
    · intro ps s m r s1 m1 h
      exact absurd h (by simp [interpChoice])
    · intro p s m vs s1 m1 h
      exact absurd h (by simp [interpRepeat])
    · intro i body s m last r s1 m1 h
      exact absurd h (by simp [interpGrow])
  | succ f ih =>
    obtain ⟨ih1, ih2, ih3, ih4⟩ := ih
    refine ⟨?_, ?_, ?_, ?_⟩
    · intro pp s m r s1 m1 h
      cases pp with
      | just c =>
        simp only [interp] at h
        rcases hnx : s.next with ⟨ot, sn⟩
        rw [hnx] at h
        have hsn := next_spec s
        rw [hnx] at hsn
        dsimp only at hsn
        cases ot with
        | some t =>
          dsimp only at h
          split_ifs at h <;>
            (simp only [Option.some.injEq, Prod.mk.injEq] at h;
             obtain ⟨-, hs, -⟩ := h; subst hs; exact hsn)
        | none =>
          dsimp only at h
          simp only [Option.some.injEq, Prod.mk.injEq] at h
          obtain ⟨-, hs, -⟩ := h
          subst hs
          exact hsn
      | choiceP ps =>
        simp only [interp] at h
        exact ih2 ps s m r s1 m1 h
      | thenP p q =>
        simp only [interp] at h
        split at h
        · exact absurd h (by simp)
        · rename_i e s0 m0 heq
          simp only [Option.some.injEq, Prod.mk.injEq] at h
          obtain ⟨-, hs, -⟩ := h
          subst hs
          exact ih1 p s m _ s0 m0 heq
        · rename_i v s0 m0 heq
          split at h
          · exact absurd h (by simp)
          · rename_i e2 s2 m2 heq2
            simp only [Option.some.injEq, Prod.mk.injEq] at h
            obtain ⟨-, hs, -⟩ := h
            subst hs
            obtain ⟨ha, hb⟩ := ih1 p s m _ s0 m0 heq
            obtain ⟨hc, hd⟩ := ih1 q s0 m0 _ s2 m2 heq2
            exact ⟨le_trans ha hc, hd.trans hb⟩
          · rename_i w s2 m2 heq2
            simp only [Option.some.injEq, Prod.mk.injEq] at h
            obtain ⟨-, hs, -⟩ := h
            subst hs
            obtain ⟨ha, hb⟩ := ih1 p s m _ s0 m0 heq
            obtain ⟨hc, hd⟩ := ih1 q s0 m0 _ s2 m2 heq2
            exact ⟨le_trans ha hc, hd.trans hb⟩
      | thenIgnore p q =>
        simp only [interp] at h
        split at h
        · exact absurd h (by simp)
        · rename_i e s0 m0 heq
          simp only [Option.some.injEq, Prod.mk.injEq] at h
          obtain ⟨-, hs, -⟩ := h
          subst hs
          exact ih1 p s m _ s0 m0 heq
        · rename_i v s0 m0 heq
          split at h
          · exact absurd h (by simp)
          · rename_i e2 s2 m2 heq2
            simp only [Option.some.injEq, Prod.mk.injEq] at h
            obtain ⟨-, hs, -⟩ := h
            subst hs
            obtain ⟨ha, hb⟩ := ih1 p s m _ s0 m0 heq
            obtain ⟨hc, hd⟩ := ih1 q s0 m0 _ s2 m2 heq2
            exact ⟨le_trans ha hc, hd.trans hb⟩
          · rename_i w s2 m2 heq2
            simp only [Option.some.injEq, Prod.mk.injEq] at h
            obtain ⟨-, hs, -⟩ := h
            subst hs
            obtain ⟨ha, hb⟩ := ih1 p s m _ s0 m0 heq
            obtain ⟨hc, hd⟩ := ih1 q s0 m0 _ s2 m2 heq2
            exact ⟨le_trans ha hc, hd.trans hb⟩
      | ignoreThen p q =>
        simp only [interp] at h
        split at h
        · exact absurd h (by simp)
        · rename_i e s0 m0 heq
          simp only [Option.some.injEq, Prod.mk.injEq] at h
          obtain ⟨-, hs, -⟩ := h
          subst hs
          exact ih1 p s m _ s0 m0 heq
        · rename_i v s0 m0 heq
          obtain ⟨ha, hb⟩ := ih1 p s m _ s0 m0 heq
          obtain ⟨hc, hd⟩ := ih1 q s0 m0 r s1 m1 h
          exact ⟨le_trans ha hc, hd.trans hb⟩
      | repeatP atLeast p =>
        simp only [interp] at h
        split at h
        · exact absurd h (by simp)
        · rename_i vs0 fk m0 heq
          split_ifs at h
          · simp only [Option.some.injEq, Prod.mk.injEq] at h
            obtain ⟨-, hs, -⟩ := h
            subst hs
            exact ⟨le_refl _, rfl⟩
          · simp only [PState.advanceTo, Option.map_eq_some'] at h
            obtain ⟨s2, hadv, heq2⟩ := h
            obtain ⟨ha, hb, -⟩ := advanceToPos_spec hadv
            simp only [Prod.mk.injEq] at heq2
            obtain ⟨-, hs, -⟩ := heq2
            subst hs
            exact ⟨ha, hb⟩
      | orNot p =>
        simp only [interp] at h
        split at h
        · exact absurd h (by simp)
        · rename_i v fk m0 heq
          simp only [PState.advanceTo, Option.map_eq_some'] at h
          obtain ⟨s2, hadv, heq2⟩ := h
          obtain ⟨ha, hb, -⟩ := advanceToPos_spec hadv
          simp only [Prod.mk.injEq] at heq2
          obtain ⟨-, hs, -⟩ := heq2
          subst hs
          exact ⟨ha, hb⟩
        · rename_i e fk m0 heq
          simp only [Option.some.injEq, Prod.mk.injEq] at h
          obtain ⟨-, hs, -⟩ := h
          subst hs
          exact ⟨le_refl _, rfl⟩
      | lookAhead p =>
        simp only [interp] at h
        split at h
        · exact absurd h (by simp)
        all_goals
          simp only [Option.some.injEq, Prod.mk.injEq] at h
        all_goals
          obtain ⟨-, hs, -⟩ := h
        all_goals
          subst hs
        all_goals
          exact ⟨le_refl _, rfl⟩
      | lookAheadNot p =>
        simp only [interp] at h
        split at h
        · exact absurd h (by simp)
        all_goals
          simp only [Option.some.injEq, Prod.mk.injEq] at h
        all_goals
          obtain ⟨-, hs, -⟩ := h
        all_goals
          subst hs
        all_goals
          exact ⟨le_refl _, rfl⟩
      | call i =>
        simp only [interp] at h
        split at h
        · exact absurd h (by simp)
        · rename_i body heq
          exact ih1 body s m r s1 m1 h
        · rename_i body heq
          split at h
          · rename_i v e hget
            simp only [Option.map_eq_some'] at h
            obtain ⟨s2, hadv, heq2⟩ := h
            obtain ⟨ha, hb, -⟩ := advanceToPos_spec hadv
            simp only [Prod.mk.injEq] at heq2
            obtain ⟨-, hs, -⟩ := heq2
            subst hs
            exact ⟨ha, hb⟩
          · rename_i hget
            split at h
            · exact absurd h (by simp)
            · rename_i e2 s0 m0 heq2
              simp only [Option.some.injEq, Prod.mk.injEq] at h
              obtain ⟨-, hs, -⟩ := h
              subst hs
              exact ih1 body s m _ s0 m0 heq2
            · rename_i v s0 m0 heq2
              simp only [Option.some.injEq, Prod.mk.injEq] at h
              obtain ⟨-, hs, -⟩ := h
              subst hs
              exact ih1 body s m _ s0 m0 heq2
        · rename_i body heq
          split at h
          · rename_i vo e hget
            split at h
            · exact absurd h (by simp)
            · rename_i s2 hadv
              obtain ⟨ha, hb, -⟩ := advanceToPos_spec hadv
              split at h <;>
                (simp only [Option.some.injEq, Prod.mk.injEq] at h;
                 obtain ⟨-, hs, -⟩ := h; subst hs; exact ⟨ha, hb⟩)
          · rename_i hget
            exact ih4 i body s _ s.pos r s1 m1 h
    · intro ps s m r s1 m1 h
      cases ps with
      | nil =>
        simp only [interpChoice, Option.some.injEq, Prod.mk.injEq] at h
        obtain ⟨-, hs, -⟩ := h
        subst hs
        exact ⟨le_refl _, rfl⟩
      | cons p rest =>
        simp only [interpChoice] at h
        split at h
        · exact absurd h (by simp)
        · rename_i v fk m0 heq
          simp only [PState.advanceTo, Option.map_eq_some'] at h
          obtain ⟨s2, hadv, heq2⟩ := h
          obtain ⟨ha, hb, -⟩ := advanceToPos_spec hadv
          simp only [Prod.mk.injEq] at heq2
          obtain ⟨-, hs, -⟩ := heq2
          subst hs
          exact ⟨ha, hb⟩
        · rename_i e fk m0 heq
          exact ih2 rest s m0 r s1 m1 h
    · intro p s m vs s1 m1 h
      simp only [interpRepeat] at h
      split at h
      · exact absurd h (by simp)
      · rename_i e fk1 m0 heq
        simp only [Option.some.injEq, Prod.mk.injEq] at h
        obtain ⟨-, hs, -⟩ := h
        subst hs
        exact ih1 p s m _ fk1 m0 heq
      · rename_i v fk1 m0 heq
        split at h
        · exact absurd h (by simp)
        · rename_i vs2 fk2 m2 heq2
          simp only [Option.some.injEq, Prod.mk.injEq] at h
          obtain ⟨-, hs, -⟩ := h
          subst hs
          obtain ⟨ha, hb⟩ := ih1 p s m _ fk1 m0 heq
          obtain ⟨hc, hd⟩ := ih3 p fk1 m0 vs2 fk2 m2 heq2
          exact ⟨le_trans ha hc, hd.trans hb⟩
    · intro i body s m last r s1 m1 h
      simp only [interpGrow] at h
      split at h
      · exact absurd h (by simp)
      · rename_i e s0 m0 heq
        simp only [Option.some.injEq, Prod.mk.injEq] at h
        obtain ⟨-, hs, -⟩ := h
        subst hs
        exact ⟨le_refl _, rfl⟩
      · rename_i v fk m0 heq
        split_ifs at h
        · split at h
          · exact absurd h (by simp)
          · rename_i s2 hadv
            obtain ⟨ha, hb, -⟩ := advanceToPos_spec hadv
            split at h
            · exact absurd h (by simp)
            · rename_i vo e2 hget
              split at h <;>
                (simp only [Option.some.injEq, Prod.mk.injEq] at h;
                 obtain ⟨-, hs, -⟩ := h; subst hs; exact ⟨ha, hb⟩)
        · exact ih4 i body s _ fk.pos r s1 m1 h

theorem choiceErrAux (g : Grammar) : ∀ f ps s m e s1 m1,
    interpChoice g f ps s m = some (.error e, s1, m1) → s1 = s ∧ e = s.stSpan := by
  intro f
  induction f with
  | zero =>
    intro ps s m e s1 m1 h
    exact absurd h (by simp [interpChoice])
  | succ f ih =>
    intro ps s m e s1 m1 h
    cases ps with
    | nil =>
      simp only [interpChoice, Option.some.injEq, Prod.mk.injEq,
        Except.error.injEq] at h
      obtain ⟨he, hs, -⟩ := h
      exact ⟨hs.symm, he.symm⟩
    | cons p rest =>
      simp only [interpChoice] at h
      split at h
      · exact absurd h (by simp)
      · rename_i v fk m0 heq
        simp only [PState.advanceTo, Option.map_eq_some'] at h
        obtain ⟨s2, -, heq2⟩ := h
        simp at heq2
      · rename_i e0 fk m0 heq
        exact ih rest s m0 e s1 m1 h

/-- C3: the `Choice` runtime op.  (i) When the first alternative succeeds on
its fork, the choice commits the fork via `advance_to` and returns the
value, for ANY list of later alternatives — they are not attempted.
(ii) When the first alternative fails, the choice proceeds with the
remaining alternatives in order, from the unchanged outer state.
(iii) An exhausted alternative list yields a single failure carrying the
outer state's span, with the outer state untouched.  (iv) `Choice` in the
syntax dispatches to this loop.  (v) Consequently a failing choice reports
the failure at the outer state's cursor and leaves it unmoved. -/
theorem c3_choice_ordered_commit (g : Grammar) (f : Nat) (p : PP)
    (rest : List PP) (s : PState) (m : MemoSt) :
    (∀ v fk m1, interp g f p s.fork m = some (.ok v, fk, m1) →
      ∀ other : List PP, interpChoice g (f + 1) (p :: other) s m =
        some (.ok v, { s with pos := fk.pos }, m1)) ∧
    (∀ e fk m1, interp g f p s.fork m = some (.error e, fk, m1) →
      interpChoice g (f + 1) (p :: rest) s m = interpChoice g f rest s m1) ∧
    (interpChoice g (f + 1) ([] : List PP) s m = some (.error s.stSpan, s, m)) ∧
    (interp g (f + 1) (.choiceP rest) s m = interpChoice g f rest s m) ∧
    (∀ e s1 m1, interpChoice g f rest s m = some (.error e, s1, m1) →
      s1 = s ∧ e = s.stSpan) := by
  refine ⟨?_, ?_, rfl, rfl, choiceErrAux g f rest s m⟩
  · intro v fk m1 h other
    have hle : s.pos ≤ fk.pos := ((interpMono g f).1 p s.fork m _ fk m1 h).1
    simp only [interpChoice]
    rw [h]
    simp [PState.advanceTo, PState.advanceToPos, if_pos hle]
  · intro e fk m1 h
    simp only [interpChoice]
    rw [h]

/-- Witness for C3: a two-alternative choice on input `"b"`; the first
alternative (`'a'`) fails, the second (`'b'`) succeeds and commits. -/
theorem c3_choice_witness :
    interpChoice [] 3 [PP.just 'a', PP.just 'b'] ⟨[⟨'b', (0, 1)⟩], 0⟩
        MemoSt.empty =
      interpChoice [] 2 [PP.just 'b'] ⟨[⟨'b', (0, 1)⟩], 0⟩ MemoSt.empty ∧
    interpChoice [] 2 [PP.just 'b', PP.just 'a'] ⟨[⟨'b', (0, 1)⟩], 0⟩
        MemoSt.empty =
      some (.ok (.ch 'b'), ⟨[⟨'b', (0, 1)⟩], 1⟩, MemoSt.empty) ∧
    interpChoice [] 1 ([] : List PP) ⟨[⟨'b', (0, 1)⟩], 0⟩ MemoSt.empty =
      some (.error (0, 0), ⟨[⟨'b', (0, 1)⟩], 0⟩, MemoSt.empty) :=
  ⟨(c3_choice_ordered_commit [] 2 (PP.just 'a') [PP.just 'b']
      ⟨[⟨'b', (0, 1)⟩], 0⟩ MemoSt.empty).2.1 (0, 1) ⟨[⟨'b', (0, 1)⟩], 1⟩
      MemoSt.empty rfl,
   (c3_choice_ordered_commit [] 1 (PP.just 'b') []
      ⟨[⟨'b', (0, 1)⟩], 0⟩ MemoSt.empty).1 (.ch 'b') ⟨[⟨'b', (0, 1)⟩], 1⟩
      MemoSt.empty rfl [PP.just 'a'],
   (c3_choice_ordered_commit [] 0 (PP.just 'a') []
      ⟨[⟨'b', (0, 1)⟩], 0⟩ MemoSt.empty).2.2.1⟩

/-- C4 counterexample: a failed single-token match moves the cursor.
`Just 'a'` on the single token `'b'` fails AND leaves the state at position
`1`, not `0`: `Just::parse` calls `state.next()` before comparing, so the
mismatched token is consumed. -/
theorem c4_counterexample_failed_just_advances :
    interp [] 2 (.just 'a') ⟨[⟨'b', (0, 1)⟩], 0⟩ MemoSt.empty =
      some (.error (0, 1), ⟨[⟨'b', (0, 1)⟩], 1⟩, MemoSt.empty) ∧
    (1 : Nat) ≠ 0 :=
  ⟨rfl, by decide⟩

/-- C4 (amended): (i) the cursor is monotone: after ANY op, successful or
failed, the state's cursor is ≥ the cursor before, and the token buffer is
untouched; (ii) a failed `Choice`, `Repeat`, `LookAhead` or `LookAheadNot`
leaves the outer state's cursor unchanged (their failed forks are
discarded); BUT (iii) a failed single-token match (`Just::parse`,
`parse_with`) consumes the mismatched token: the cursor ends one past where
it was. -/
theorem c4_cursor_monotonicity (g : Grammar) :
    (∀ f pp s m r s1 m1, interp g f pp s m = some (r, s1, m1) →
        s.pos ≤ s1.pos ∧ s1.tokens = s.tokens) ∧
    (∀ f ps s m e s1 m1,
        interp g f (.choiceP ps) s m = some (.error e, s1, m1) → s1 = s) ∧
    (∀ f n p s m e s1 m1,
        interp g f (.repeatP n p) s m = some (.error e, s1, m1) → s1 = s) ∧
    (∀ f p s m e s1 m1,
        interp g f (.lookAhead p) s m = some (.error e, s1, m1) → s1 = s) ∧
    (∀ f p s m e s1 m1,
        interp g f (.lookAheadNot p) s m = some (.error e, s1, m1) → s1 = s) ∧
    (∀ f c s m t, s.tokens.get? s.pos = some t → t.kind ≠ c →
        interp g (f + 1) (.just c) s m =
          some (.error (PState.stSpan { s with pos := s.pos + 1 }),
            { s with pos := s.pos + 1 }, m)) ∧
    (∀ (α : Type) (matcher : Char → Option α) (st : LexSt) (ch : Char),
        st.input.get? st.cursor = some ch → matcher ch = none →
        parseWith matcher st =
          (.error (st.cursor, st.cursor + 1),
            ⟨st.cursor, st.cursor + 1, st.input⟩)) := by
  refine ⟨fun f => ((interpMono g f).1), ?_, ?_, ?_, ?_, ?_, ?_⟩
  · intro f ps s m e s1 m1 h
    cases f with
    | zero => exact absurd h (by simp [interp])
    | succ f =>
      simp only [interp] at h
      exact (choiceErrAux g f ps s m e s1 m1 h).1
  · intro f n p s m e s1 m1 h
    cases f with
    | zero => exact absurd h (by simp [interp])
    | succ f =>
      simp only [interp] at h
      split at h
      · exact absurd h (by simp)
      · rename_i vs fk m0 heq
        split_ifs at h
        · simp only [Option.some.injEq, Prod.mk.injEq] at h
          exact h.2.1.symm
        · simp only [PState.advanceTo, Option.map_eq_some'] at h
          obtain ⟨s2, -, heq2⟩ := h
          simp at heq2
  · intro f p s m e s1 m1 h
    cases f with
    | zero => exact absurd h (by simp [interp])
    | succ f =>
      simp only [interp] at h
      split at h
      · exact absurd h (by simp)
      · rename_i v fk m0 heq
        simp at h
      · rename_i e0 fk m0 heq
        simp only [Option.some.injEq, Prod.mk.injEq] at h
        exact h.2.1.symm
  · intro f p s m e s1 m1 h
    cases f with
    | zero => exact absurd h (by simp [interp])
    | succ f =>
      simp only [interp] at h
      split at h
      · exact absurd h (by simp)
      · rename_i v fk m0 heq
        simp only [Option.some.injEq, Prod.mk.injEq] at h
        exact h.2.1.symm
      · rename_i e0 fk m0 heq
        simp at h
  · intro f c s m t hget hk
    simp only [interp, PState.next, hget]
    rw [if_neg hk]
  · intro α matcher st ch hget hmat
    simp only [parseWith, LexSt.lexNext, hget]
    rw [hmat]
    rfl

/-- Witness for C4 at concrete inputs: a successful `Just` advances `0 ≤ 1`;
a failed two-alternative choice leaves the state; a failed `Just` on `'b'`
ends at position `1`; `parse_with` with an always-rejecting matcher consumes
the character. -/
theorem c4_cursor_witness :
    ((0 : Nat) ≤ 1 ∧ ([⟨'a', (0, 1)⟩] : List Tok) = [⟨'a', (0, 1)⟩]) ∧
    (⟨[⟨'c', (0, 1)⟩], 0⟩ : PState) = ⟨[⟨'c', (0, 1)⟩], 0⟩ ∧
    interp [] 2 (.just 'a') ⟨[⟨'b', (0, 1)⟩], 0⟩ MemoSt.empty =
      some (.error (PState.stSpan ⟨[⟨'b', (0, 1)⟩], 1⟩), ⟨[⟨'b', (0, 1)⟩], 1⟩,
        MemoSt.empty) ∧
    parseWith (fun _ => (none : Option Nat)) ⟨0, 0, ['b']⟩ =
      (.error (0, 1), ⟨0, 1, ['b']⟩) :=
  ⟨(c4_cursor_monotonicity []).1 2 (.just 'a') ⟨[⟨'a', (0, 1)⟩], 0⟩
      MemoSt.empty (.ok (.ch 'a')) ⟨[⟨'a', (0, 1)⟩], 1⟩ MemoSt.empty rfl,
   (c4_cursor_monotonicity []).2.1 4 [PP.just 'a', PP.just 'b']
      ⟨[⟨'c', (0, 1)⟩], 0⟩ MemoSt.empty (0, 0) ⟨[⟨'c', (0, 1)⟩], 0⟩
      MemoSt.empty rfl,
   (c4_cursor_monotonicity []).2.2.2.2.2.1 1 'a' ⟨[⟨'b', (0, 1)⟩], 0⟩
      MemoSt.empty ⟨'b', (0, 1)⟩ rfl (by decide),
   (c4_cursor_monotonicity []).2.2.2.2.2.2 Nat (fun _ => none) ⟨0, 0, ['b']⟩
      'b' rfl rfl⟩

theorem lrInsert_mono {lr : List Nat} {x : Nat} (y : Nat) (h : x ∈ lr) :
    x ∈ lrInsert lr y := by
  unfold lrInsert
  split_ifs
  · exact h
  · exact List.mem_append_left _ h

theorem lrInsert_self (lr : List Nat) (y : Nat) : y ∈ lrInsert lr y := by
  unfold lrInsert
  split_ifs with hy
  · exact hy
  · exact List.mem_append_right _ (List.mem_singleton_self y)

theorem scanDeps_mono (name : Nat) :
    ∀ (deps : List Nat) (st lr : List Nat) (x : Nat), x ∈ lr →
      x ∈ (scanDeps name deps st lr).2 := by
  intro deps
  induction deps with
  | nil => intro st lr x hx; exact hx
  | cons d ds ih =>
    intro st lr x hx
    simp only [scanDeps]
    split_ifs with h1 h3
    · exact ih st lr x hx
    · exact lrInsert_mono name hx
    · exact ih _ lr x hx

theorem scanDeps_marks_self (name : Nat) :
    ∀ (deps : List Nat) (st lr : List Nat), name ∈ deps ∨ name ∈ lr →
      name ∈ (scanDeps name deps st lr).2 := by
  intro deps
  induction deps with
  | nil =>
    intro st lr h
    rcases h with h | h
    · simp at h
    · exact h
  | cons d ds ih =>
    intro st lr h
    simp only [scanDeps]
    split_ifs with h1 h3
    · refine ih st lr ?_
      rcases h with h | h
      · rcases List.mem_cons.mp h with h | h
        · exact Or.inr (h ▸ h1)
        · exact Or.inl h
      · exact Or.inr h
    · exact lrInsert_self lr name
    · refine ih _ lr ?_
      rcases h with h | h
      · rcases List.mem_cons.mp h with h | h
        · exfalso
          rw [Bool.or_eq_true, not_or] at h3
          exact h3.2 (by simp [h])
        · exact Or.inl h
      · exact Or.inr h

theorem lrLoop_mono (g : LGraph) :
    ∀ (f : Nat) (st lr lr1 : List Nat), lrLoop g f st lr = some lr1 →
      ∀ x ∈ lr, x ∈ lr1 := by
  intro f
  induction f with
  | zero =>
    intro st lr lr1 h
    exact absurd h (by simp [lrLoop])
  | succ f ih =>
    intro st lr lr1 h x hx
    simp only [lrLoop] at h
    split at h
    · simp only [Option.some.injEq] at h
      exact h ▸ hx
    · rename_i nm st1 heq
      exact ih _ _ lr1 h x (scanDeps_mono nm (g.depsOf nm) st1 lr x hx)

theorem lrLoop_marks_selfloop (g : LGraph) (n : Nat) (hself : n ∈ g.depsOf n) :
    ∀ (f : Nat) (lr lr1 : List Nat), lrLoop g f [n] lr = some lr1 → n ∈ lr1 := by
  intro f lr lr1 h
  cases f with
  | zero => exact absurd h (by simp [lrLoop])
  | succ f =>
    simp only [lrLoop] at h
    have hpop : osPopBack [n] = some (n, []) := rfl
    rw [hpop] at h
    exact lrLoop_mono g f _ _ lr1 h n
      (scanDeps_marks_self n (g.depsOf n) [] lr (Or.inl hself))

theorem lrOuter_mono (g : LGraph) (fuel : Nat) :
    ∀ (ks lr lr1 : List Nat), lrOuter g fuel ks lr = some lr1 →
      ∀ x ∈ lr, x ∈ lr1 := by
  intro ks
  induction ks with
  | nil =>
    intro lr lr1 h x hx
    simp only [lrOuter, Option.some.injEq] at h
    exact h ▸ hx
  | cons k ks ih =>
    intro lr lr1 h x hx
    simp only [lrOuter] at h
    split_ifs at h with hk
    · exact ih lr lr1 h x hx
    · split at h
      · exact absurd h (by simp)
      · rename_i lr2 heq
        exact ih lr2 lr1 h x (lrLoop_mono g fuel [k] lr lr2 heq x hx)

theorem lrOuter_marks (g : LGraph) (fuel : Nat) :
    ∀ (ks lr lr1 : List Nat), lrOuter g fuel ks lr = some lr1 →
      ∀ n ∈ ks, n ∈ g.depsOf n → n ∈ lr1 := by
  intro ks
  induction ks with
  | nil =>
    intro lr lr1 h n hn
    simp at hn
  | cons k ks ih =>
    intro lr lr1 h n hn hself
    simp only [lrOuter] at h
    rcases List.mem_cons.mp hn with hnk | hnk
    · subst hnk
      split_ifs at h with hk
      · exact lrOuter_mono g fuel ks lr lr1 h n hk
      · split at h
        · exact absurd h (by simp)
        · rename_i lr2 heq
          exact lrOuter_mono g fuel ks lr2 lr1 h n
            (lrLoop_marks_selfloop g n hself fuel lr lr2 heq)
    · split_ifs at h with hk
      · exact ih lr lr1 h n hnk hself
      · split at h
        · exact absurd h (by simp)
        · rename_i lr2 heq
          exact ih lr2 lr1 h n hnk hself

/-- C5 counterexample: in the left-call graph `A → {A, B}`, `B → {A}`
(nodes `0` and `1`), node `1` lies on the directed cycle `0 → 1 → 0`, yet
the analysis marks only `{0}`: node `1` is assigned `Memorize`, not
`LeftRec`, refuting "marks exactly the set of non-terminals that lie on some
directed cycle". -/
theorem c5_counterexample_cycle_node_unmarked :
    analyzeLR cycleDemoGraph 50 = some [0] ∧
    onCycle cycleDemoGraph 1 = true ∧
    memoKindOf [0] 1 = .memorize ∧
    memoKindOf [0] 1 ≠ .leftRec :=
  ⟨rfl, rfl, rfl, by decide⟩

/-- C5 (amended): when the analysis terminates, every non-terminal with a
direct left-call self-loop is marked left-recursive (non-terminals lying only
on longer cycles may be missed, as the counterexample shows); every marked
non-terminal is assigned the `LeftRec` memoization kind and every unmarked
one is assigned `Memorize`. -/
theorem c5_left_recursion_analysis (g : LGraph) (fuel : Nat) (lr : List Nat)
    (h : analyzeLR g fuel = some lr) :
    (∀ n ∈ g.keys, n ∈ g.depsOf n → n ∈ lr) ∧
    (∀ n, memoKindOf lr n = .leftRec ↔ n ∈ lr) ∧
    (∀ n, memoKindOf lr n = .memorize ↔ n ∉ lr) := by
  refine ⟨?_, ?_, ?_⟩
  · intro n hk hself
    exact lrOuter_marks g fuel g.keys [] lr h n hk hself
  · intro n
    unfold memoKindOf
    split_ifs with hn <;> simp [hn]
  · intro n
    unfold memoKindOf
    split_ifs with hn <;> simp [hn]

/-- Witness for C5 on the concrete demo graph: the self-looping node `0` is
marked and receives `LeftRec`; the unmarked node `1` receives `Memorize`. -/
theorem c5_analysis_witness :
    (0 ∈ ([0] : List Nat)) ∧
    (memoKindOf [0] 0 = .leftRec ↔ 0 ∈ ([0] : List Nat)) ∧
    (memoKindOf [0] 1 = .memorize ↔ 1 ∉ ([0] : List Nat)) :=
  ⟨(c5_left_recursion_analysis cycleDemoGraph 50 [0] rfl).1 0 (by decide)
      (by decide),
   (c5_left_recursion_analysis cycleDemoGraph 50 [0] rfl).2.1 0,
   (c5_left_recursion_analysis cycleDemoGraph 50 [0] rfl).2.2 1⟩

theorem depDfs_correct (g : DGraph) (n : Nat) :
    ∀ (f : Nat) (visited stack res : List Nat),
      depDfs g f visited stack = some res →
      (∀ v ∈ visited, DReach g n v) →
      (∀ x ∈ stack, DReach g n x) →
      (n ∈ visited ∨ n ∈ stack) →
      (∀ v ∈ visited, ∀ d ∈ g.direct v, d ∈ visited ∨ d ∈ stack) →
      visited.Nodup →
      (∀ v ∈ visited, v ∈ res) ∧
      (∀ v ∈ res, DReach g n v) ∧
      (∀ v ∈ res, ∀ d ∈ g.direct v, d ∈ res) ∧
      n ∈ res ∧ res.Nodup := by
  intro f
  induction f with
  | zero =>
    intro visited stack res h
    exact absurd h (by simp [depDfs])
  | succ f ih =>
    intro visited stack res h hrv hrs hn hcl hnd
    cases stack with
    | nil =>
      simp only [depDfs, Option.some.injEq] at h
      subst h
      refine ⟨fun v hv => hv, hrv, ?_, ?_, hnd⟩
      · intro v hv d hd
        rcases hcl v hv d hd with h1 | h1
        · exact h1
        · simp at h1
      · rcases hn with h1 | h1
        · exact h1
        · simp at h1
    | cons x rest =>
      simp only [depDfs] at h
      split_ifs at h with hx
      · refine ih visited rest res h hrv
          (fun y hy => hrs y (List.mem_cons_of_mem _ hy)) ?_ ?_ hnd
        · rcases hn with h1 | h1
          · exact Or.inl h1
          · rcases List.mem_cons.mp h1 with h2 | h2
            · exact Or.inl (h2 ▸ hx)
            · exact Or.inr h2
        · intro v hv d hd
          rcases hcl v hv d hd with h1 | h1
          · exact Or.inl h1
          · rcases List.mem_cons.mp h1 with h2 | h2
            · exact Or.inl (h2 ▸ hx)
            · exact Or.inr h2
      · have hreach_x : DReach g n x := hrs x (List.mem_cons_self _ _)
        have main := ih (visited ++ [x]) ((g.direct x).reverse ++ rest) res h
          (by
            intro v hv
            rcases List.mem_append.mp hv with h1 | h1
            · exact hrv v h1
            · rw [List.mem_singleton] at h1
              exact h1 ▸ hreach_x)
          (by
            intro y hy
            rcases List.mem_append.mp hy with h1 | h1
            · exact DReach.step hreach_x (List.mem_reverse.mp h1)
            · exact hrs y (List.mem_cons_of_mem _ h1))
          (by
            rcases hn with h1 | h1
            · exact Or.inl (List.mem_append_left _ h1)
            · rcases List.mem_cons.mp h1 with h2 | h2
              · exact Or.inl
                  (List.mem_append_right _ (h2 ▸ List.mem_singleton_self x))
              · exact Or.inr (List.mem_append_right _ h2))
          (by
            intro v hv d hd
            rcases List.mem_append.mp hv with h1 | h1
            · rcases hcl v h1 d hd with h2 | h2
              · exact Or.inl (List.mem_append_left _ h2)
              · rcases List.mem_cons.mp h2 with h3 | h3
                · exact Or.inl
                    (List.mem_append_right _ (h3 ▸ List.mem_singleton_self x))
                · exact Or.inr (List.mem_append_right _ h3)
            · rw [List.mem_singleton] at h1
              subst h1
              exact Or.inr (List.mem_append_left _ (List.mem_reverse.mpr hd)))
          (by
            rw [List.nodup_append]
            exact ⟨hnd, List.nodup_singleton x, by simpa using hx⟩)
        obtain ⟨hsub, hres1, hres2, hres3, hres4⟩ := main
        exact ⟨fun v hv => hsub v (List.mem_append_left _ hv),
          hres1, hres2, hres3, hres4⟩

theorem reach_closed_mem {g : DGraph} {n : Nat} {res : List Nat}
    (hroot : n ∈ res) (hcl : ∀ v ∈ res, ∀ d ∈ g.direct v, d ∈ res) :
    ∀ x, DReach g n x → x ∈ res := by
  intro x hx
  induction hx with
  | refl => exact hroot
  | step h1 h2 ihr => exact hcl _ ihr _ h2

/-- C6: for every non-terminal `n`, the computed transitive dependency list
contains exactly the non-terminals reachable from `n` along
direct-dependency edges (a direct dependency being any non-terminal
referenced in a body except the referencing parser itself, per
`Atom::analyze_direct_depends`), with `n` itself removed; the list has no
duplicates.  The list is a pure function of the grammar's insertion-ordered
direct-dependency maps, so the same grammar always yields the same order. -/
theorem c6_transitive_dependencies (g : DGraph) (n fuel : Nat)
    (res : List Nat) (h : transDeps g n fuel = some res) :
    (∀ x, x ∈ res ↔ DReach g n x ∧ x ≠ n) ∧ res.Nodup := by
  unfold transDeps at h
  cases hdfs : depDfs g fuel [] [n] with
  | none => rw [hdfs] at h; simp at h
  | some visited =>
    rw [hdfs] at h
    simp only [Option.some.injEq] at h
    subst h
    obtain ⟨-, hres1, hres2, hres3, hres4⟩ :=
      depDfs_correct g n fuel [] [n] visited hdfs (by simp)
        (by
          intro x hx
          rw [List.mem_singleton] at hx
          subst hx
          exact DReach.refl _)
        (Or.inr (List.mem_singleton_self n)) (by simp) List.nodup_nil
    constructor
    · intro x
      rw [List.Nodup.mem_erase_iff hres4]
      constructor
      · rintro ⟨hne, hxv⟩
        exact ⟨hres1 x hxv, hne⟩
      · rintro ⟨hreach, hne⟩
        exact ⟨hne, reach_closed_mem hres3 hres2 x hreach⟩
    · exact hres4.erase n

/-- Witness for C6: on the demo grammar the computed list for non-terminal
`0` is `[2, 1]`; extracting the forward direction at `1` yields an actual
reachability derivation, and `1 ≠ 0`. -/
theorem c6_deps_witness : DReach depsDemoGraph 0 1 ∧ (1 : Nat) ≠ 0 :=
  ((c6_transitive_dependencies depsDemoGraph 0 50 [2, 1] rfl).1 1).mp (by decide)

theorem splitArgs_ne_nil (toks : List TokE) : splitArgs toks ≠ [] := by
  induction toks with
  | nil => simp [splitArgs]
  | cons t rest ih =>
    cases t with
    | tokComma => simp [splitArgs]
    | tokIdent s =>
      simp only [splitArgs]
      cases h : splitArgs rest with
      | nil => simp
      | cons seg segs => simp
    | tokLit s =>
      simp only [splitArgs]
      cases h : splitArgs rest with
      | nil => simp
      | cons seg segs => simp

theorem splitArgs_mem_mem (toks : List TokE) :
    ∀ seg ∈ splitArgs toks, ∀ t ∈ seg, t ∈ toks := by
  induction toks with
  | nil =>
    intro seg hseg t ht
    simp [splitArgs] at hseg
    subst hseg
    simp at ht
  | cons hd rest ih =>
    intro seg hseg t ht
    cases hd with
    | tokComma =>
      simp only [splitArgs, List.mem_cons] at hseg
      rcases hseg with h | h
      · subst h; simp at ht
      · exact List.mem_cons_of_mem _ (ih seg h t ht)
    | tokIdent s =>
      simp only [splitArgs] at hseg
      cases hsp : splitArgs rest with
      | nil => exact absurd hsp (splitArgs_ne_nil rest)
      | cons seg0 segs =>
        rw [hsp] at hseg
        simp only [List.mem_cons] at hseg
        rcases hseg with h | h
        · subst h
          rcases List.mem_cons.mp ht with h2 | h2
          · subst h2; exact List.mem_cons_self _ _
          · exact List.mem_cons_of_mem _
              (ih seg0 (hsp ▸ List.mem_cons_self seg0 segs) t h2)
        · exact List.mem_cons_of_mem _
            (ih seg (hsp ▸ List.mem_cons_of_mem seg0 h) t ht)
    | tokLit s =>
      simp only [splitArgs] at hseg
      cases hsp : splitArgs rest with
      | nil => exact absurd hsp (splitArgs_ne_nil rest)
      | cons seg0 segs =>
        rw [hsp] at hseg
        simp only [List.mem_cons] at hseg
        rcases hseg with h | h
        · subst h
          rcases List.mem_cons.mp ht with h2 | h2
          · subst h2; exact List.mem_cons_self _ _
          · exact List.mem_cons_of_mem _
              (ih seg0 (hsp ▸ List.mem_cons_self seg0 segs) t h2)
        · exact List.mem_cons_of_mem _
            (ih seg (hsp ▸ List.mem_cons_of_mem seg0 h) t ht)

theorem parseSegs_mem :
    ∀ (l : List (List TokE)) (res : List ExprE), parseSegs l = some res →
      ∀ b ∈ res, ∃ seg ∈ l, parseSeg seg = some b := by
  intro l
  induction l with
  | nil =>
    intro res h b hb
    simp only [parseSegs, Option.some.injEq] at h
    subst h
    simp at hb
  | cons seg segs ih =>
    intro res h b hb
    simp only [parseSegs] at h
    cases h1 : parseSeg seg with
    | none => rw [h1] at h; simp at h
    | some e =>
      rw [h1] at h
      cases h2 : parseSegs segs with
      | none => rw [h2] at h; simp at h
      | some es =>
        rw [h2] at h
        simp only [Option.some.injEq] at h
        subst h
        rcases List.mem_cons.mp hb with hb | hb
        · exact ⟨seg, List.mem_cons_self _ _, hb ▸ h1⟩
        · obtain ⟨sg, hsg, hps⟩ := ih es h2 b hb
          exact ⟨sg, List.mem_cons_of_mem _ hsg, hps⟩

theorem parseSeg_noSelf_fixed (seg : List TokE) (e : ExprE)
    (hp : parseSeg seg = some e) (hns : ∀ t ∈ seg, noSelfTok t = true) :
    rewriteArg e = (e, false) := by
  match seg, hp with
  | [.tokLit s], hp =>
    simp only [parseSeg, Option.some.injEq] at hp
    subst hp
    rfl
  | [.tokIdent s], hp =>
    simp only [parseSeg, Option.some.injEq] at hp
    subst hp
    have hs : s ≠ "self" := by
      have := hns (.tokIdent s) (List.mem_cons_self _ _)
      simpa [noSelfTok] using this
    simp [rewriteArg, hs]

theorem rewrite_flag_false (allow : List String) :
    ∀ e : ExprE, e.noSelf = true → (rewriteExpr allow e).2 = false := by
  intro e
  induction e with
  | evar s =>
    intro h
    simp only [ExprE.noSelf, decide_eq_true_eq] at h
    simp [rewriteExpr, h]
  | elit s => intro h; rfl
  | ebin l r ihl ihr =>
    intro h
    simp only [ExprE.noSelf, Bool.and_eq_true] at h
    simp [rewriteExpr, ihl h.1, ihr h.2]
  | emac path toks =>
    intro h
    simp only [ExprE.noSelf] at h
    by_cases hin : path ∈ allow
    · simp only [rewriteExpr, if_pos hin]
      cases hargs : parseArgs toks with
      | none => rfl
      | some args =>
        simp only
        have hfix : ∀ a ∈ args, rewriteArg a = (a, false) := by
          intro a ha
          simp only [parseArgs] at hargs
          by_cases hlast : (splitArgs toks).getLast? = some []
          · rw [if_pos hlast] at hargs
            obtain ⟨seg, hseg, hpa⟩ := parseSegs_mem _ args hargs a ha
            have hsub : seg ∈ splitArgs toks := List.dropLast_subset _ hseg
            exact parseSeg_noSelf_fixed seg a hpa fun t ht =>
              List.all_eq_true.mp h t (splitArgs_mem_mem toks seg hsub t ht)
          · rw [if_neg hlast] at hargs
            obtain ⟨seg, hseg, hpa⟩ := parseSegs_mem _ args hargs a ha
            exact parseSeg_noSelf_fixed seg a hpa fun t ht =>
              List.all_eq_true.mp h t (splitArgs_mem_mem toks seg hseg t ht)
        have : ∀ b ∈ (args.map rewriteArg).map (·.2), b = false := by
          intro b hb
          simp only [List.map_map, List.mem_map] at hb
          obtain ⟨a, ha, hab⟩ := hb
          rw [← hab, Function.comp_apply, hfix a ha]
        rw [List.any_eq_false]
        intro x hx
        simp [this x hx]
    · simp [rewriteExpr, if_neg hin]

theorem rewrite_identity (allow : List String) :
    ∀ e : ExprE, e.noSelf = true → e.reserializes allow = false →
      rewriteExpr allow e = (e, false) := by
  intro e
  induction e with
  | evar s =>
    intro h _
    simp only [ExprE.noSelf, decide_eq_true_eq] at h
    simp [rewriteExpr, h]
  | elit s => intro _ _; rfl
  | ebin l r ihl ihr =>
    intro h hr
    simp only [ExprE.noSelf, Bool.and_eq_true] at h
    simp only [ExprE.reserializes, Bool.or_eq_false_iff] at hr
    simp [rewriteExpr, ihl h.1 hr.1, ihr h.2 hr.2]
  | emac path toks =>
    intro _ hr
    simp only [ExprE.reserializes, Bool.and_eq_false_iff] at hr
    by_cases hin : path ∈ allow
    · rcases hr with hr | hr
      · rw [decide_eq_false_iff_not] at hr
        exact absurd hin hr
      · have : parseArgs toks = none := by
          cases h : parseArgs toks with
          | none => rfl
          | some args => rw [h] at hr; simp at hr
        simp [rewriteExpr, if_pos hin, this]
    · simp [rewriteExpr, if_neg hin]

/-- C9 counterexample: the action `format!("fmt", x)` contains no `self`,
`format` is on the allow-list and its arguments re-parse, yet the rewriter
re-serializes the argument list with a trailing comma appended, so the
rewritten action is not token-equal to the original. -/
theorem c9_counterexample_trailing_comma :
    ExprE.noSelf (.emac "format" [.tokLit "fmt", .tokComma, .tokIdent "x"]) = true ∧
    rewriteExpr ["format"] (.emac "format" [.tokLit "fmt", .tokComma, .tokIdent "x"]) =
      (.emac "format" [.tokLit "fmt", .tokComma, .tokIdent "x", .tokComma], false) ∧
    ExprE.emac "format" [.tokLit "fmt", .tokComma, .tokIdent "x", .tokComma] ≠
      ExprE.emac "format" [.tokLit "fmt", .tokComma, .tokIdent "x"] := by
  refine ⟨rfl, rfl, by decide⟩

/-- C9 (amended): if the action contains no occurrence of the identifier
`self` (macro argument tokens included), the rewriter reports no `self`
reference and the rule capture is left unwrapped; and the rewritten action
is token-for-token identical to the original whenever the action contains no
allow-listed macro invocation with a re-parseable argument list — for such a
macro the rewriter re-serializes its arguments, appending a trailing comma
after every argument. -/
theorem c9_rewrite_conservative (allow : List String) (e : ExprE)
    (hns : e.noSelf = true) :
    (rewriteExpr allow e).2 = false ∧
    (∀ cap : CaptureE, ruleCapture (rewriteExpr allow e).2 cap = cap) ∧
    (e.reserializes allow = false → rewriteExpr allow e = (e, false)) := by
  refine ⟨rewrite_flag_false allow e hns, ?_, rewrite_identity allow e hns⟩
  intro cap
  rw [rewrite_flag_false allow e hns]
  rfl

/-- Witness for C9 on a concrete `self`-free action containing a
non-allow-listed macro. -/
theorem c9_rewrite_witness :
    (rewriteExpr ["format"]
      (.ebin (.evar "x") (.emac "vec" [.tokIdent "y"]))).2 = false ∧
    ruleCapture
      (rewriteExpr ["format"]
        (.ebin (.evar "x") (.emac "vec" [.tokIdent "y"]))).2 .loud = .loud ∧
    rewriteExpr ["format"] (.ebin (.evar "x") (.emac "vec" [.tokIdent "y"])) =
      (.ebin (.evar "x") (.emac "vec" [.tokIdent "y"]), false) := by
  have h := c9_rewrite_conservative ["format"]
    (.ebin (.evar "x") (.emac "vec" [.tokIdent "y"])) (by decide)
  exact ⟨h.1, h.2.1 .loud, h.2.2 (by decide)⟩

/-- C1: evaluation at the failing input.  In the grammar `N ← !N 'a'`
(non-terminal `0`, memoized LeftRec) on input `"a"`, the first grow
iteration succeeds (the memo records `(Some 'a', 1)`), the second iteration's
body fails; `LeftRec::parse` of `primitive.rs` propagates that failure with
`?`, so the whole parse errors with the state left at position `0` — whereas
`left_rec` of `memo.rs`, run on the equivalent body, breaks out of the loop
and returns the last successful value `'a'` with end cursor `1` as the claim
states. -/
theorem c1_leftrec_failure_propagation :
    interp lrecDemoGrammar 20 (.call 0) lrecDemoState MemoSt.empty =
      some (.error (0, 0), lrecDemoState,
        ⟨[], [((0, 0), (some (.ch 'a'), 1)), ((0, 0), (none, 0))]⟩) ∧
    leftRecF lrecDemoBody 0 [] 20 =
      some (.ok ('a', 1), [(0, some 'a', 1), (0, none, 0)]) :=
  ⟨rfl, rfl⟩

end ParseIt
